import Mathlib

/-!
Shallow embedding of the two estimator data structures of the repository
HyperLogLogVsSpectralBloomAnalysis:

* `SpectralBloomFilter` embeds `src/algorithms/SpectralBloomFilter.py`
  (a counting Bloom filter estimating per-element frequency);
* `HyperLogLog` embeds `src/algorithms/hyperLogLog.py`
  (a register-based estimator of the number of distinct elements).

Modelling conventions: Python integers are `Nat`/`Int` (Python `%` with a
positive modulus is Euclidean `Int.emod`); Python floats, including
`float('inf')`, are `EReal` where infinity can flow and `Real` elsewhere;
a raised `ValueError` is `Except.error`; the external hash functions
(`mmh3.hash(str(x), i)`, a signed 32-bit value, and
`int(hashlib.md5(str(x).encode()).hexdigest(), 16)`, a 128-bit value) are
abstract parameters `mmh : α → Nat → Int` and `md5h : α → Nat`.
-/

/-- State of the spectral Bloom filter: `self.k` hash functions, `self.m`
buckets, and the counter array `self.t` (`np.zeros(m, dtype=int)`). -/
structure SpectralBloomFilter where
  k : Nat
  m : Nat
  t : List Nat

namespace SpectralBloomFilter

/-- The constructor `SpectralBloomFilter.__init__`: all `m` counters start
at zero. -/
def init (k m : Nat) : SpectralBloomFilter :=
  ⟨k, m, List.replicate m 0⟩

/-- The method `hashing`: `mmh3.hash(str(x), i) % self.m`.  The murmur hash
may be negative; Python `%` with a positive modulus is Euclidean mod, so the
result is a valid `Nat` index. -/
def hashing (mmh : α → Nat → Int) (m : Nat) (x : α) (i : Nat) : Nat :=
  (mmh x i % (m : Int)).toNat

/-- One counter increment `self.t[b] += 1` of the insert loop. -/
def bump (t : List Nat) (b : Nat) : List Nat :=
  t.set b (t.getD b 0 + 1)

/-- The method `insert`: `for i in range(self.k): self.t[self.hashing(x, i)] += 1`. -/
def insert (mmh : α → Nat → Int) (s : SpectralBloomFilter) (x : α) : SpectralBloomFilter :=
  ⟨s.k, s.m, (List.range s.k).foldl (fun tt i => bump tt (hashing mmh s.m x i)) s.t⟩

/-- The method `get_expected_error`: returns `0.0` when `self.m == 0` or
`data_size == 0`, otherwise `(1 - e^(-k*n/m))^k`. -/
noncomputable def get_expected_error (s : SpectralBloomFilter) (data_size : Nat) : ℝ :=
  if s.m = 0 ∨ data_size = 0 then 0
  else (1 - Real.exp (-(s.k : ℝ) * (data_size : ℝ) / (s.m : ℝ))) ^ s.k

/-- The `min_count` accumulation of the method `check`: starting from
`float('inf')` (modelled as `⊤ : EReal`), take the minimum of the probed
counters `self.t[self.hashing(x, i)]` over `i in range(self.k)`. -/
noncomputable def min_count (mmh : α → Nat → Int) (s : SpectralBloomFilter) (x : α) : EReal :=
  (List.range s.k).foldl
    (fun acc i => min acc (((s.t.getD (hashing mmh s.m x i) 0 : Nat) : ℝ) : EReal)) ⊤

/-- The method `check`.  With `apply_correction=True` and no `data_size` it
raises `ValueError` (modelled as `Except.error`); with correction it returns
`max(0.0, min_count - expected_error)`; without correction it returns
`float(min_count)`.  The query reads `self.t` and never mutates it, which the
embedding reflects by taking the state as a pure argument. -/
noncomputable def check (mmh : α → Nat → Int) (s : SpectralBloomFilter) (x : α)
    (apply_correction : Bool) (data_size : Option Nat) : Except String EReal :=
  let mc := min_count mmh s x
  if apply_correction then
    match data_size with
    | none => Except.error "data_size must be provided when apply_correction=True"
    | some n => Except.ok (max 0 (mc - ((get_expected_error s n : ℝ) : EReal)))
  else
    Except.ok mc

end SpectralBloomFilter

/-- State of the HyperLogLog estimator: `self.m` registers (`self.registers
= [0] * m`).  The derived fields `p = int(math.log2(m))` and `alpha_m` are
modelled as functions of `m` below. -/
structure HyperLogLog where
  m : Nat
  registers : List Nat

namespace HyperLogLog

/-- The derived field `self.p = int(math.log2(m))`; exact for the intended
power-of-two register counts. -/
def p (h : HyperLogLog) : Nat := Nat.log2 h.m

/-- The constructor `HyperLogLog.__init__`: `m` registers, all zero. -/
def init (m : Nat) : HyperLogLog :=
  ⟨m, List.replicate m 0⟩

/-- The method `_get_alpha_m`: the piecewise bias-correction constant. -/
noncomputable def alpha_m (m : Nat) : ℝ :=
  if 128 ≤ m then 0.7213 / (1 + 1.079 / (m : ℝ))
  else if 64 ≤ m then 0.709
  else if 32 ≤ m then 0.697
  else if 16 ≤ m then 0.673
  else 0.5

/-- The method `leftmost_1_bit_position` (the rho function): for a zero hash
it returns `(128 - p) + 1`; otherwise `bin(hash_value)[2:]` has
`Nat.log2 hash_value + 1` digits, `zfill(128 - p)` left-pads with zeros (a
no-op when the string is already long enough, matching `Nat` truncated
subtraction), and `find('1') + 1` is the number of leading zeros plus one. -/
def leftmost_1_bit_position (p hash_value : Nat) : Nat :=
  if hash_value = 0 then (128 - p) + 1
  else ((128 - p) - (Nat.log2 hash_value + 1)) + 1

/-- One register write of the method `insert`:
`self.registers[i] = max(self.registers[i], position)`. -/
def setMax (l : List Nat) (i v : Nat) : List Nat :=
  l.set i (max (l.getD i 0) v)

/-- The method `insert`: hash, split off the low `p` bits as the register
index (`hash_value & (self.m - 1)`), shift them away
(`hash_value >> self.p`), compute the rank and merge it with `max`. -/
def insert (md5h : α → Nat) (h : HyperLogLog) (x : α) : HyperLogLog :=
  let hash_value := md5h x
  let register_index := hash_value &&& (h.m - 1)
  let remaining_hash := hash_value >>> h.p
  let position := leftmost_1_bit_position h.p remaining_hash
  ⟨h.m, setMax h.registers register_index position⟩

/-- The sum `sum([2**-reg for reg in self.registers])` of the method
`harmonic_mean`. -/
noncomputable def sum_of_inverses (h : HyperLogLog) : ℝ :=
  (h.registers.map (fun reg : Nat => (2 : ℝ) ^ (-(reg : ℤ)))).sum

/-- The method `harmonic_mean`: `Z = 1 / sum(2^-M[j])`.  The Python code
returns `float('inf')` when the sum is zero; `estimate_cardinality` tests for
that sentinel, which the embedding expresses by guarding on
`sum_of_inverses = 0` directly (in Lean `1 / 0 = 0` is junk that never flows
past the guard). -/
noncomputable def harmonic_mean (h : HyperLogLog) : ℝ :=
  1 / sum_of_inverses h

/-- The method `estimate_cardinality`: the infinite-harmonic guard returns
`0.0`; otherwise the raw estimate `alpha_m * m**2 * harmonic` is returned as
is without bias correction, and with correction it goes through the
small-range (linear counting), mid-range, and large-range regimes exactly as
in the source. -/
noncomputable def estimate_cardinality (h : HyperLogLog) (use_bias_correction : Bool) : ℝ :=
  if sum_of_inverses h = 0 then 0
  else
    let raw_estimate := alpha_m h.m * ((h.m : ℝ)) ^ 2 * harmonic_mean h
    if use_bias_correction then
      if raw_estimate ≤ 2.5 * (h.m : ℝ) then
        let V := h.registers.count 0
        if 0 < V then (h.m : ℝ) * Real.log ((h.m : ℝ) / (V : ℝ))
        else raw_estimate
      else if raw_estimate ≤ 2 ^ 32 / 30 then raw_estimate
      else
        let ratio := raw_estimate / 2 ^ 32
        if ratio < 1 then -(2 ^ 32) * Real.log (1 - ratio)
        else raw_estimate
    else raw_estimate

/-- Modelled from the spec's piecewise description of the corrected
estimator (section 4.1, steps 4-6): the five-case function of the raw
estimate `R = alphaM * m^2 * Z` and the zero-register count `V`, to be
compared with `estimate_cardinality` as read off the source. -/
noncomputable def estimate_cardinality_specced (h : HyperLogLog) : ℝ :=
  let R := alpha_m h.m * ((h.m : ℝ)) ^ 2 * harmonic_mean h
  let V := h.registers.count 0
  if R ≤ 2.5 * (h.m : ℝ) then
    if 0 < V then (h.m : ℝ) * Real.log ((h.m : ℝ) / (V : ℝ)) else R
  else if R ≤ 2 ^ 32 / 30 then R
  else if R / 2 ^ 32 < 1 then -(2 ^ 32) * Real.log (1 - R / 2 ^ 32)
  else R

end HyperLogLog

/-- The spec's known small-case scenario for the cardinality estimator:
`m = 16` and sixteen distinct elements that hashed to sixteen distinct
registers, each with rank 1 (so every register holds 1). -/
def hll16 : HyperLogLog := ⟨16, List.replicate 16 1⟩

/-! Helper lemmas about the counter array primitives. -/

theorem sbf_bump_length (t : List Nat) (b : Nat) :
    (SpectralBloomFilter.bump t b).length = t.length := by
  simp [SpectralBloomFilter.bump]

theorem sbf_getD_le_bump (t : List Nat) (b j : Nat) :
    t.getD j 0 ≤ (SpectralBloomFilter.bump t b).getD j 0 := by
  induction t generalizing b j with
  | nil => simp [SpectralBloomFilter.bump]
  | cons a as ih =>
    cases b with
    | zero =>
      cases j with
      | zero => simp [SpectralBloomFilter.bump]
      | succ j' => simp [SpectralBloomFilter.bump]
    | succ b' =>
      cases j with
      | zero => simp [SpectralBloomFilter.bump]
      | succ j' => simpa [SpectralBloomFilter.bump] using ih b' j'

theorem sbf_getD_bump_self (t : List Nat) (b : Nat) (hb : b < t.length) :
    (SpectralBloomFilter.bump t b).getD b 0 = t.getD b 0 + 1 := by
  induction t generalizing b with
  | nil => simp at hb
  | cons a as ih =>
    cases b with
    | zero => simp [SpectralBloomFilter.bump]
    | succ b' =>
      have hb' : b' < as.length := by simpa using hb
      simpa [SpectralBloomFilter.bump] using ih b' hb'

theorem length_foldl_bump (l : List Nat) (g : Nat → Nat) (t : List Nat) :
    (l.foldl (fun tt i => SpectralBloomFilter.bump tt (g i)) t).length = t.length := by
  induction l generalizing t with
  | nil => rfl
  | cons b bs ih => simp [List.foldl_cons, ih, sbf_bump_length]

theorem sbf_insert_t_length (mmh : α → Nat → Int) (s : SpectralBloomFilter) (x : α) :
    (SpectralBloomFilter.insert mmh s x).t.length = s.t.length :=
  length_foldl_bump _ _ _

theorem sbf_insert_k (mmh : α → Nat → Int) (s : SpectralBloomFilter) (x : α) :
    (SpectralBloomFilter.insert mmh s x).k = s.k := rfl

theorem sbf_insert_m (mmh : α → Nat → Int) (s : SpectralBloomFilter) (x : α) :
    (SpectralBloomFilter.insert mmh s x).m = s.m := rfl

theorem sbf_foldl_m (mmh : α → Nat → Int) (l : List α) (s : SpectralBloomFilter) :
    (l.foldl (SpectralBloomFilter.insert mmh) s).m = s.m := by
  induction l generalizing s with
  | nil => rfl
  | cons y ys ih => simpa using ih (SpectralBloomFilter.insert mmh s y)

theorem sbf_foldl_k (mmh : α → Nat → Int) (l : List α) (s : SpectralBloomFilter) :
    (l.foldl (SpectralBloomFilter.insert mmh) s).k = s.k := by
  induction l generalizing s with
  | nil => rfl
  | cons y ys ih => simpa using ih (SpectralBloomFilter.insert mmh s y)

theorem sbf_foldl_t_length (mmh : α → Nat → Int) (l : List α) (s : SpectralBloomFilter) :
    (l.foldl (SpectralBloomFilter.insert mmh) s).t.length = s.t.length := by
  induction l generalizing s with
  | nil => rfl
  | cons y ys ih =>
    calc ((ys.foldl (SpectralBloomFilter.insert mmh) (SpectralBloomFilter.insert mmh s y)).t).length
        = (SpectralBloomFilter.insert mmh s y).t.length := ih _
      _ = s.t.length := sbf_insert_t_length mmh s y

/-! Generic lemmas about folded minima (the `min_count` loop shape). -/

theorem foldl_min_le_init {γ : Type} [LinearOrder γ] (f : Nat → γ) (l : List Nat) (a : γ) :
    l.foldl (fun acc i => min acc (f i)) a ≤ a := by
  induction l generalizing a with
  | nil => exact le_refl a
  | cons b bs ih => exact le_trans (ih (min a (f b))) (min_le_left a (f b))

theorem le_foldl_min {γ : Type} [LinearOrder γ] (f : Nat → γ) (l : List Nat) (a c : γ)
    (ha : c ≤ a) (hf : ∀ i ∈ l, c ≤ f i) :
    c ≤ l.foldl (fun acc i => min acc (f i)) a := by
  induction l generalizing a with
  | nil => exact ha
  | cons b bs ih =>
    exact ih (min a (f b)) (le_min ha (hf b (by simp))) (fun i hi => hf i (by simp [hi]))

theorem foldl_min_le_mem {γ : Type} [LinearOrder γ] (f : Nat → γ) (l : List Nat) (a : γ)
    (i : Nat) (hi : i ∈ l) :
    l.foldl (fun acc j => min acc (f j)) a ≤ f i := by
  induction l generalizing a with
  | nil => simp at hi
  | cons b bs ih =>
    rcases List.mem_cons.mp hi with h | h
    · subst h
      exact le_trans (foldl_min_le_init f bs (min a (f i))) (min_le_right a (f i))
    · exact ih (min a (f b)) h

/-- C10: the bucket index `hashing(x, i) = mmh3.hash(str(x), i) % m` always
lies in `[0, m)` when `m ≥ 1`, even for a negative murmur hash value
(Euclidean `%` with a positive modulus is non-negative), and the counter
array of any state built by `insert` from `init k m` keeps length `m`, so
probes never go out of bounds. -/
theorem sbf_hashing_in_range (mmh : α → Nat → Int) (k m : Nat) (hm : 1 ≤ m)
    (x : α) (i : Nat) (l : List α) :
    SpectralBloomFilter.hashing mmh m x i < m ∧
      (l.foldl (SpectralBloomFilter.insert mmh) (SpectralBloomFilter.init k m)).t.length = m := by
  constructor
  · have hm0 : (0 : ℤ) < (m : ℤ) := by exact_mod_cast hm
    have h1 : 0 ≤ mmh x i % (m : ℤ) := Int.emod_nonneg _ (by omega)
    have h2 : mmh x i % (m : ℤ) < (m : ℤ) := Int.emod_lt_of_pos _ hm0
    simp only [SpectralBloomFilter.hashing]
    omega
  · rw [sbf_foldl_t_length]
    simp [SpectralBloomFilter.init]

/-- Witness for C10 at a concrete negative hash value. -/
theorem sbf_hashing_in_range_witness :
    1 ≤ 3 ∧
      (SpectralBloomFilter.hashing (fun (_ : Nat) (_ : Nat) => (-5 : Int)) 3 0 0 < 3 ∧
        (([2, 7] : List Nat).foldl
            (SpectralBloomFilter.insert (fun (_ : Nat) (_ : Nat) => (-5 : Int)))
            (SpectralBloomFilter.init 2 3)).t.length = 3) :=
  ⟨by decide, sbf_hashing_in_range (fun _ _ => (-5 : Int)) 2 3 (by decide) 0 0 [2, 7]⟩

/-- C7: a corrected frequency query without `data_size` fails with the
`ValueError` condition; an uncorrected query, or a corrected query with a
supplied `data_size`, always succeeds.  The query is read-only by
construction (`check` consumes the state and returns only a value). -/
theorem sbf_check_requires_data_size (mmh : α → Nat → Int) (s : SpectralBloomFilter) (x : α) :
    SpectralBloomFilter.check mmh s x true none =
        Except.error "data_size must be provided when apply_correction=True" ∧
      (∀ n : Nat, ∃ v, SpectralBloomFilter.check mmh s x true (some n) = Except.ok v) ∧
      (∀ d : Option Nat, ∃ v, SpectralBloomFilter.check mmh s x false d = Except.ok v) := by
  refine ⟨rfl, fun n => ⟨_, rfl⟩, fun d => ⟨_, rfl⟩⟩

/-- C8: the corrected query with a supplied total insertion count `n` returns
exactly `max 0 (min_count - E_b)` with
`E_b = (1 - e^(-k*n/m))^k` (and `E_b = 0` when `m = 0` or `n = 0`), and that
value is never negative, even when `min_count - E_b` is. -/
theorem sbf_corrected_check_clamped (mmh : α → Nat → Int) (s : SpectralBloomFilter)
    (x : α) (n : Nat) :
    SpectralBloomFilter.check mmh s x true (some n) =
        Except.ok (max 0 (SpectralBloomFilter.min_count mmh s x -
          ((SpectralBloomFilter.get_expected_error s n : ℝ) : EReal))) ∧
      (0 : EReal) ≤ max 0 (SpectralBloomFilter.min_count mmh s x -
        ((SpectralBloomFilter.get_expected_error s n : ℝ) : EReal)) ∧
      SpectralBloomFilter.get_expected_error s n =
        (if s.m = 0 ∨ n = 0 then 0
         else (1 - Real.exp (-(s.k : ℝ) * (n : ℝ) / (s.m : ℝ))) ^ s.k) :=
  ⟨rfl, le_max_left 0 _, rfl⟩

/-! Helper lemmas about the HyperLogLog estimator. -/

theorem hll_registers_nil_of_sum_zero (h : HyperLogLog)
    (hs : HyperLogLog.sum_of_inverses h = 0) : h.registers = [] := by
  rcases hr : h.registers with _ | ⟨a, as⟩
  · rfl
  · exfalso
    have hsplit : HyperLogLog.sum_of_inverses h =
        (2 : ℝ) ^ (-(a : ℤ)) + (as.map (fun reg : Nat => (2 : ℝ) ^ (-(reg : ℤ)))).sum := by
      rw [HyperLogLog.sum_of_inverses, hr]
      simp
    have h1 : (0 : ℝ) < (2 : ℝ) ^ (-(a : ℤ)) := zpow_pos (by norm_num) _
    have h2 : (0 : ℝ) ≤ (as.map (fun reg : Nat => (2 : ℝ) ^ (-(reg : ℤ)))).sum := by
      apply List.sum_nonneg
      intro x hx
      rcases List.mem_map.mp hx with ⟨r, _, rfl⟩
      positivity
    have hpos : 0 < HyperLogLog.sum_of_inverses h := by
      rw [hsplit]
      linarith
    exact absurd hs (ne_of_gt hpos)

theorem hll_sum_init (m : Nat) :
    HyperLogLog.sum_of_inverses (HyperLogLog.init m) = m := by
  rw [HyperLogLog.sum_of_inverses]
  show ((List.replicate m 0).map (fun reg : Nat => (2 : ℝ) ^ (-(reg : ℤ)))).sum = m
  rw [List.map_replicate, List.sum_replicate]
  norm_num

theorem hll_alpha_le (m : Nat) : HyperLogLog.alpha_m m ≤ 2.5 := by
  unfold HyperLogLog.alpha_m
  split_ifs with h1 h2 h3 h4
  · have hden : (1 : ℝ) ≤ 1 + 1.079 / (m : ℝ) := by
      have hnn : (0 : ℝ) ≤ 1.079 / (m : ℝ) := by positivity
      linarith
    calc (0.7213 : ℝ) / (1 + 1.079 / (m : ℝ)) ≤ 0.7213 := div_le_self (by norm_num) hden
      _ ≤ 2.5 := by norm_num
  all_goals norm_num

theorem hll_estimate_small_linear (h : HyperLogLog)
    (hsum : HyperLogLog.sum_of_inverses h ≠ 0)
    (hraw : HyperLogLog.alpha_m h.m * ((h.m : ℝ)) ^ 2 * HyperLogLog.harmonic_mean h ≤
      2.5 * (h.m : ℝ))
    (hV : 0 < h.registers.count 0) :
    HyperLogLog.estimate_cardinality h true =
      (h.m : ℝ) * Real.log ((h.m : ℝ) / ((h.registers.count 0 : Nat) : ℝ)) := by
  simp only [HyperLogLog.estimate_cardinality]
  rw [if_neg hsum]
  simp only [if_true]
  rw [if_pos hraw, if_pos hV]

theorem hll_estimate_small_fallthrough (h : HyperLogLog)
    (hsum : HyperLogLog.sum_of_inverses h ≠ 0)
    (hraw : HyperLogLog.alpha_m h.m * ((h.m : ℝ)) ^ 2 * HyperLogLog.harmonic_mean h ≤
      2.5 * (h.m : ℝ))
    (hV : h.registers.count 0 = 0) :
    HyperLogLog.estimate_cardinality h true =
      HyperLogLog.alpha_m h.m * ((h.m : ℝ)) ^ 2 * HyperLogLog.harmonic_mean h := by
  simp only [HyperLogLog.estimate_cardinality]
  rw [if_neg hsum]
  simp only [if_true]
  rw [if_pos hraw, if_neg (by omega)]

/-- C2: with bias correction on, `estimate_cardinality` computes exactly the
five-case piecewise function of the raw estimate that the spec prescribes. -/
theorem hll_estimate_matches_piecewise (h : HyperLogLog) :
    HyperLogLog.estimate_cardinality h true = HyperLogLog.estimate_cardinality_specced h := by
  by_cases hs : HyperLogLog.sum_of_inverses h = 0
  · have hreg := hll_registers_nil_of_sum_zero h hs
    have hharm : HyperLogLog.harmonic_mean h = 0 := by
      simp [HyperLogLog.harmonic_mean, hs]
    simp only [HyperLogLog.estimate_cardinality, HyperLogLog.estimate_cardinality_specced,
      hharm, mul_zero, hreg, List.count_nil]
    rw [if_pos hs, if_pos (by positivity : (0 : ℝ) ≤ 2.5 * (h.m : ℝ))]
    simp
  · simp only [HyperLogLog.estimate_cardinality, HyperLogLog.estimate_cardinality_specced]
    rw [if_neg hs]
    simp only [if_true]

theorem hll16_sum : HyperLogLog.sum_of_inverses hll16 = 8 := by
  rw [HyperLogLog.sum_of_inverses]
  show ((List.replicate 16 1).map (fun reg : Nat => (2 : ℝ) ^ (-(reg : ℤ)))).sum = 8
  rw [List.map_replicate, List.sum_replicate]
  norm_num

theorem hll16_harmonic : HyperLogLog.harmonic_mean hll16 = 1 / 8 := by
  rw [HyperLogLog.harmonic_mean, hll16_sum]

theorem hll16_alpha : HyperLogLog.alpha_m 16 = 0.673 := by
  rw [HyperLogLog.alpha_m]
  norm_num

theorem hll16_raw :
    HyperLogLog.alpha_m hll16.m * ((hll16.m : ℝ)) ^ 2 * HyperLogLog.harmonic_mean hll16 =
      0.673 * 32 := by
  have hm : hll16.m = 16 := rfl
  rw [hm, hll16_alpha, hll16_harmonic]
  norm_num

/-- C9 counterexample: in the claimed small-case state (all sixteen registers
at rank 1) the harmonic quantity `Z = 1 / sum(2^-M[j])` is `1/8`, not `16`,
so the claimed conjunction is false at this concrete state. -/
theorem hll16_small_case_claim_false :
    ¬(HyperLogLog.harmonic_mean hll16 = 16 ∧
      HyperLogLog.estimate_cardinality hll16 true = HyperLogLog.alpha_m 16 * 16) := by
  intro hcl
  have h := hll16_harmonic
  rw [hcl.1] at h
  norm_num at h

/-- C9 (amended): with all sixteen registers at rank 1, `Z = 1/8`, the raw
estimate is `alphaM(16) * 256 * (1/8) = alphaM(16) * 32 = 0.673 * 32`, which
is at most `2.5 * 16 = 40`; all registers are non-zero (`V = 0`), so the
corrected estimator falls through and returns exactly the raw estimate. -/
theorem hll16_small_case_amended :
    HyperLogLog.harmonic_mean hll16 = 1 / 8 ∧
      HyperLogLog.alpha_m 16 * 256 * (1 / 8) = 0.673 * 32 ∧
      (0.673 : ℝ) * 32 ≤ 2.5 * 16 ∧
      hll16.registers.count 0 = 0 ∧
      HyperLogLog.estimate_cardinality hll16 true = 0.673 * 32 := by
  refine ⟨hll16_harmonic, by rw [hll16_alpha]; norm_num, by norm_num, by decide, ?_⟩
  have hres := hll_estimate_small_fallthrough hll16
    (by rw [hll16_sum]; norm_num)
    (by rw [hll16_raw, show hll16.m = 16 from rfl]; norm_num)
    (by decide)
  rw [hres, hll16_raw]

theorem getD_replicate_zero (n i : Nat) : (List.replicate n (0 : Nat)).getD i 0 = 0 := by
  induction n generalizing i with
  | zero => simp
  | succ n ih =>
    cases i with
    | zero => simp [List.replicate]
    | succ i' => simpa [List.replicate] using ih i'

theorem sbf_min_count_init (mmh : α → Nat → Int) (k mb : Nat) (hk : 1 ≤ k) (x : α) :
    SpectralBloomFilter.min_count mmh (SpectralBloomFilter.init k mb) x = 0 := by
  rw [SpectralBloomFilter.min_count]
  have hf : ∀ i : Nat,
      ((((SpectralBloomFilter.init k mb).t.getD
        (SpectralBloomFilter.hashing mmh (SpectralBloomFilter.init k mb).m x i) 0 : Nat) : ℝ) :
          EReal) = 0 := by
    intro i
    have hz : (SpectralBloomFilter.init k mb).t.getD
        (SpectralBloomFilter.hashing mmh (SpectralBloomFilter.init k mb).m x i) 0 = 0 :=
      getD_replicate_zero mb _
    rw [hz]
    norm_num
  apply le_antisymm
  · have hmem : 0 ∈ List.range (SpectralBloomFilter.init k mb).k := by
      simpa [SpectralBloomFilter.init] using hk
    have := foldl_min_le_mem
      (fun i => ((((SpectralBloomFilter.init k mb).t.getD
        (SpectralBloomFilter.hashing mmh (SpectralBloomFilter.init k mb).m x i) 0 : Nat) : ℝ) :
          EReal))
      (List.range (SpectralBloomFilter.init k mb).k) ⊤ 0 hmem
    calc (List.range (SpectralBloomFilter.init k mb).k).foldl
          (fun acc i => min acc ((((SpectralBloomFilter.init k mb).t.getD
            (SpectralBloomFilter.hashing mmh (SpectralBloomFilter.init k mb).m x i) 0 : Nat) : ℝ) :
              EReal)) ⊤ ≤ _ := this
      _ = 0 := hf 0
  · apply le_foldl_min
    · exact le_top
    · intro i _
      rw [hf i]

/-- C4: a freshly constructed cardinality estimator (power-of-two `m ≥ 2`)
reports exactly 0 under bias correction (all registers zero, so the raw
estimate `alphaM * m` falls in the small range, `V = m > 0`, and linear
counting gives `m * ln(m/m) = 0`), and a freshly constructed frequency
estimator returns exactly 0 for every queried element. -/
theorem zero_state_fresh (mmh : α → Nat → Int) (m k mb : Nat)
    (hmpow : ∃ e, m = 2 ^ e) (hm2 : 2 ≤ m) (hk : 1 ≤ k) (hmb : 1 ≤ mb) (x : α) :
    HyperLogLog.estimate_cardinality (HyperLogLog.init m) true = 0 ∧
      SpectralBloomFilter.check mmh (SpectralBloomFilter.init k mb) x false none =
        Except.ok 0 := by
  constructor
  · have hmm : (HyperLogLog.init m).m = m := rfl
    have hsum : HyperLogLog.sum_of_inverses (HyperLogLog.init m) = (m : ℝ) := hll_sum_init m
    have hm0 : (m : ℝ) ≠ 0 := by
      have hpos : (0 : ℝ) < (m : ℝ) := by exact_mod_cast lt_of_lt_of_le (by norm_num) hm2
      exact ne_of_gt hpos
    have hharm : HyperLogLog.harmonic_mean (HyperLogLog.init m) = 1 / (m : ℝ) := by
      rw [HyperLogLog.harmonic_mean, hsum]
    have hcount : (HyperLogLog.init m).registers.count 0 = m := by
      simp [HyperLogLog.init]
    have hraw : HyperLogLog.alpha_m (HyperLogLog.init m).m *
        (((HyperLogLog.init m).m : ℝ)) ^ 2 * HyperLogLog.harmonic_mean (HyperLogLog.init m) ≤
          2.5 * ((HyperLogLog.init m).m : ℝ) := by
      rw [hmm, hharm]
      calc HyperLogLog.alpha_m m * (m : ℝ) ^ 2 * (1 / (m : ℝ))
          = HyperLogLog.alpha_m m * ((m : ℝ) ^ 2 * (1 / (m : ℝ))) := by ring
        _ = HyperLogLog.alpha_m m * (m : ℝ) := by
            congr 1
            field_simp
            ring
        _ ≤ 2.5 * (m : ℝ) := mul_le_mul_of_nonneg_right (hll_alpha_le m) (by positivity)
    have hres := hll_estimate_small_linear (HyperLogLog.init m)
      (by rw [hsum]; exact hm0) hraw (by rw [hcount]; omega)
    rw [hres, hmm, hcount, div_self hm0, Real.log_one, mul_zero]
  · rw [SpectralBloomFilter.check]
    simp only [Bool.false_eq_true, if_false]
    rw [sbf_min_count_init mmh k mb hk x]

/-- Witness for C4 at m = 16 = 2^4, k = 3, 100 buckets. -/
theorem zero_state_fresh_witness :
    (∃ e : Nat, 16 = 2 ^ e) ∧ 2 ≤ 16 ∧ 1 ≤ 3 ∧ 1 ≤ 100 ∧
      (HyperLogLog.estimate_cardinality (HyperLogLog.init 16) true = 0 ∧
        SpectralBloomFilter.check (fun (a : Nat) (i : Nat) => (a : Int) - 7 * i)
          (SpectralBloomFilter.init 3 100) 9 false none = Except.ok 0) :=
  ⟨⟨4, by norm_num⟩, by norm_num, by norm_num, by norm_num,
    zero_state_fresh (fun (a : Nat) (i : Nat) => (a : Int) - 7 * i) 16 3 100 ⟨4, by norm_num⟩
      (by norm_num) (by norm_num) (by norm_num) 9⟩

theorem hll_getD_le_setMax (l : List Nat) (i v j : Nat) :
    l.getD j 0 ≤ (HyperLogLog.setMax l i v).getD j 0 := by
  induction l generalizing i j with
  | nil => simp [HyperLogLog.setMax]
  | cons a as ih =>
    cases i with
    | zero =>
      cases j with
      | zero => simp [HyperLogLog.setMax, le_max_left]
      | succ j' => simp [HyperLogLog.setMax]
    | succ i' =>
      cases j with
      | zero => simp [HyperLogLog.setMax]
      | succ j' => simpa [HyperLogLog.setMax] using ih i' j'

theorem sbf_getD_le_foldl_bump (l : List Nat) (g : Nat → Nat) (t : List Nat) (j : Nat) :
    t.getD j 0 ≤ (l.foldl (fun tt i => SpectralBloomFilter.bump tt (g i)) t).getD j 0 := by
  induction l generalizing t with
  | nil => exact le_refl _
  | cons b bs ih =>
    exact le_trans (sbf_getD_le_bump t (g b) j) (ih (SpectralBloomFilter.bump t (g b)))

/-- C6: a single `insert` never decreases any slot: every register after a
cardinality-estimator insert is at least its old value (merge via `max`),
and every counter after a frequency-estimator insert is at least its old
value (increments only). -/
theorem insert_monotone_slots (md5h : α → Nat) (mmh : β → Nat → Int)
    (h : HyperLogLog) (s : SpectralBloomFilter) (x : α) (y : β) (j : Nat) :
    h.registers.getD j 0 ≤ (HyperLogLog.insert md5h h x).registers.getD j 0 ∧
      s.t.getD j 0 ≤ (SpectralBloomFilter.insert mmh s y).t.getD j 0 := by
  constructor
  · exact hll_getD_le_setMax h.registers _ _ j
  · exact sbf_getD_le_foldl_bump (List.range s.k) _ s.t j

theorem hll_position_le (p hv : Nat) :
    HyperLogLog.leftmost_1_bit_position p hv ≤ (128 - p) + 1 := by
  rw [HyperLogLog.leftmost_1_bit_position]
  split_ifs
  · exact le_refl _
  · omega

theorem mem_set_cases (l : List Nat) (i a r : Nat) (hr : r ∈ l.set i a) : r ∈ l ∨ r = a := by
  induction l generalizing i with
  | nil => simp at hr
  | cons b bs ih =>
    cases i with
    | zero =>
      rcases List.mem_cons.mp hr with h | h
      · right; exact h
      · left; exact List.mem_cons_of_mem b h
    | succ i' =>
      rcases List.mem_cons.mp hr with h | h
      · left; simp [h]
      · rcases ih i' h with h2 | h2
        · left; exact List.mem_cons_of_mem b h2
        · right; exact h2

theorem getD_mem_or_eq_zero (l : List Nat) (i : Nat) : l.getD i 0 ∈ l ∨ l.getD i 0 = 0 := by
  induction l generalizing i with
  | nil => right; simp
  | cons a as ih =>
    cases i with
    | zero => left; simp
    | succ i' =>
      rw [List.getD_cons_succ]
      rcases ih i' with h | h
      · left; exact List.mem_cons_of_mem a h
      · right; exact h

theorem hll_insert_registers_bound (md5h : α → Nat) (h : HyperLogLog) (x : α)
    (hinv : ∀ r ∈ h.registers, r ≤ (128 - HyperLogLog.p h) + 1) :
    ∀ r ∈ (HyperLogLog.insert md5h h x).registers, r ≤ (128 - HyperLogLog.p h) + 1 := by
  intro r hr
  have hcases : r ∈ h.registers ∨
      r = max (h.registers.getD (md5h x &&& (h.m - 1)) 0)
        (HyperLogLog.leftmost_1_bit_position (HyperLogLog.p h)
          (md5h x >>> HyperLogLog.p h)) :=
    mem_set_cases h.registers (md5h x &&& (h.m - 1)) _ r hr
  rcases hcases with hmem | heq
  · exact hinv r hmem
  · rw [heq]
    have h1 : h.registers.getD (md5h x &&& (h.m - 1)) 0 ≤ (128 - HyperLogLog.p h) + 1 := by
      rcases getD_mem_or_eq_zero h.registers (md5h x &&& (h.m - 1)) with hm | hz
      · exact hinv _ hm
      · omega
    have h2 := hll_position_le (HyperLogLog.p h) (md5h x >>> HyperLogLog.p h)
    exact max_le h1 h2

theorem hll_foldl_m (md5h : α → Nat) (l : List α) (h : HyperLogLog) :
    (l.foldl (HyperLogLog.insert md5h) h).m = h.m := by
  induction l generalizing h with
  | nil => rfl
  | cons y ys ih => simpa using ih (HyperLogLog.insert md5h h y)

theorem hll_foldl_registers_bound (md5h : α → Nat) (l : List α) (h : HyperLogLog)
    (hinv : ∀ r ∈ h.registers, r ≤ (128 - HyperLogLog.p h) + 1) :
    ∀ r ∈ (l.foldl (HyperLogLog.insert md5h) h).registers,
      r ≤ (128 - HyperLogLog.p h) + 1 := by
  induction l generalizing h with
  | nil => exact hinv
  | cons y ys ih =>
    intro r hr
    have hp : HyperLogLog.p (HyperLogLog.insert md5h h y) = HyperLogLog.p h := rfl
    have hnext := hll_insert_registers_bound md5h h y hinv
    have hres := ih (HyperLogLog.insert md5h h y) (by rw [hp]; exact hnext) r hr
    rwa [hp] at hres

/-- C5: in every state reachable from construction by insert calls, every
register value lies between 0 and `(128 - p) + 1` (the MD5 hash is 128 bits
wide, and the rank written by `insert` never exceeds the remaining-bit-width
plus one). -/
theorem register_bound_reachable (md5h : α → Nat) (m : Nat) (hmpow : ∃ e, m = 2 ^ e)
    (l : List α) (r : Nat)
    (hr : r ∈ (l.foldl (HyperLogLog.insert md5h) (HyperLogLog.init m)).registers) :
    0 ≤ r ∧
      r ≤ (128 - HyperLogLog.p (l.foldl (HyperLogLog.insert md5h) (HyperLogLog.init m))) + 1 := by
  refine ⟨Nat.zero_le r, ?_⟩
  have hp : HyperLogLog.p (l.foldl (HyperLogLog.insert md5h) (HyperLogLog.init m)) =
      HyperLogLog.p (HyperLogLog.init m) := by
    rw [HyperLogLog.p, HyperLogLog.p, hll_foldl_m]
  rw [hp]
  refine hll_foldl_registers_bound md5h l (HyperLogLog.init m) ?_ r hr
  intro r0 hr0
  have hz := List.eq_of_mem_replicate hr0
  omega

/-- Witness for C5: one insertion of the element 37 (hashed to itself) into a
fresh 16-register estimator, and the untouched register value 0. -/
theorem register_bound_reachable_witness :
    (∃ e : Nat, 16 = 2 ^ e) ∧
      (0 : Nat) ∈ (([37] : List Nat).foldl (HyperLogLog.insert (fun n : Nat => n))
        (HyperLogLog.init 16)).registers ∧
      (0 ≤ 0 ∧
        0 ≤ (128 - HyperLogLog.p (([37] : List Nat).foldl
          (HyperLogLog.insert (fun n : Nat => n)) (HyperLogLog.init 16))) + 1) := by
  have hmem : (0 : Nat) ∈ (([37] : List Nat).foldl (HyperLogLog.insert (fun n : Nat => n))
      (HyperLogLog.init 16)).registers := by
    show (0 : Nat) ∈
      (HyperLogLog.insert (fun n : Nat => n) (HyperLogLog.init 16) 37).registers
    simp only [HyperLogLog.insert, HyperLogLog.p, HyperLogLog.init,
      HyperLogLog.leftmost_1_bit_position, HyperLogLog.setMax]
    decide
  exact ⟨⟨4, by norm_num⟩, hmem,
    register_bound_reachable (fun n : Nat => n) 16 ⟨4, by norm_num⟩ [37] 0 hmem⟩

theorem hll_setMax_comm (l : List Nat) (i j v w : Nat) :
    HyperLogLog.setMax (HyperLogLog.setMax l i v) j w =
      HyperLogLog.setMax (HyperLogLog.setMax l j w) i v := by
  induction l generalizing i j with
  | nil => simp [HyperLogLog.setMax]
  | cons a as ih =>
    cases i with
    | zero =>
      cases j with
      | zero =>
        simp only [HyperLogLog.setMax, List.set_cons_zero, List.getD_cons_zero]
        congr 1
        omega
      | succ j' =>
        simp [HyperLogLog.setMax, List.set_cons_zero, List.set_cons_succ,
          List.getD_cons_zero, List.getD_cons_succ]
    | succ i' =>
      cases j with
      | zero =>
        simp [HyperLogLog.setMax, List.set_cons_zero, List.set_cons_succ,
          List.getD_cons_zero, List.getD_cons_succ]
      | succ j' =>
        simpa [HyperLogLog.setMax, List.set_cons_succ, List.getD_cons_succ]
          using ih i' j'

theorem hll_insert_comm (md5h : α → Nat) (h : HyperLogLog) (x y : α) :
    HyperLogLog.insert md5h (HyperLogLog.insert md5h h x) y =
      HyperLogLog.insert md5h (HyperLogLog.insert md5h h y) x := by
  simp only [HyperLogLog.insert, HyperLogLog.p]
  exact congrArg (HyperLogLog.mk h.m) (hll_setMax_comm h.registers _ _ _ _)

theorem sbf_bump_comm (t : List Nat) (b c : Nat) :
    SpectralBloomFilter.bump (SpectralBloomFilter.bump t b) c =
      SpectralBloomFilter.bump (SpectralBloomFilter.bump t c) b := by
  induction t generalizing b c with
  | nil => simp [SpectralBloomFilter.bump]
  | cons a as ih =>
    cases b with
    | zero =>
      cases c with
      | zero => simp [SpectralBloomFilter.bump]
      | succ c' =>
        simp [SpectralBloomFilter.bump, List.set_cons_zero, List.set_cons_succ,
          List.getD_cons_zero, List.getD_cons_succ]
    | succ b' =>
      cases c with
      | zero =>
        simp [SpectralBloomFilter.bump, List.set_cons_zero, List.set_cons_succ,
          List.getD_cons_zero, List.getD_cons_succ]
      | succ c' =>
        simpa [SpectralBloomFilter.bump, List.set_cons_succ, List.getD_cons_succ]
          using ih b' c'

theorem sbf_bump_foldl_comm (bs : List Nat) (t : List Nat) (c : Nat) :
    SpectralBloomFilter.bump (bs.foldl SpectralBloomFilter.bump t) c =
      bs.foldl SpectralBloomFilter.bump (SpectralBloomFilter.bump t c) := by
  induction bs generalizing t with
  | nil => rfl
  | cons b bs' ih =>
    simp only [List.foldl_cons]
    rw [ih (SpectralBloomFilter.bump t b), sbf_bump_comm]

theorem sbf_foldl_foldl_swap (bs cs : List Nat) (t : List Nat) :
    cs.foldl SpectralBloomFilter.bump (bs.foldl SpectralBloomFilter.bump t) =
      bs.foldl SpectralBloomFilter.bump (cs.foldl SpectralBloomFilter.bump t) := by
  induction cs generalizing t with
  | nil => rfl
  | cons c cs' ih =>
    simp only [List.foldl_cons]
    rw [sbf_bump_foldl_comm bs t c, ih (SpectralBloomFilter.bump t c)]

theorem sbf_insert_t (mmh : α → Nat → Int) (s : SpectralBloomFilter) (x : α) :
    (SpectralBloomFilter.insert mmh s x).t =
      ((List.range s.k).map (SpectralBloomFilter.hashing mmh s.m x)).foldl
        SpectralBloomFilter.bump s.t := by
  rw [List.foldl_map]
  rfl

theorem sbf_insert_comm (mmh : α → Nat → Int) (s : SpectralBloomFilter) (x y : α) :
    SpectralBloomFilter.insert mmh (SpectralBloomFilter.insert mmh s x) y =
      SpectralBloomFilter.insert mmh (SpectralBloomFilter.insert mmh s y) x := by
  have ht : (SpectralBloomFilter.insert mmh (SpectralBloomFilter.insert mmh s x) y).t =
      (SpectralBloomFilter.insert mmh (SpectralBloomFilter.insert mmh s y) x).t := by
    rw [sbf_insert_t mmh (SpectralBloomFilter.insert mmh s x) y,
      sbf_insert_t mmh (SpectralBloomFilter.insert mmh s y) x,
      sbf_insert_k, sbf_insert_k, sbf_insert_m, sbf_insert_m,
      sbf_insert_t mmh s x, sbf_insert_t mmh s y]
    exact sbf_foldl_foldl_swap _ _ _
  show SpectralBloomFilter.mk s.k s.m
      (SpectralBloomFilter.insert mmh (SpectralBloomFilter.insert mmh s x) y).t =
    SpectralBloomFilter.mk s.k s.m
      (SpectralBloomFilter.insert mmh (SpectralBloomFilter.insert mmh s y) x).t
  rw [ht]

/-- C3: order independence.  Inserting a multiset of elements in either of
two permuted orders into a fresh cardinality estimator yields identical
register arrays, and into a fresh frequency estimator yields identical
counter arrays. -/
theorem order_independence (md5h : α → Nat) (mmh : α → Nat → Int)
    (l₁ l₂ : List α) (hperm : l₁.Perm l₂) (m k mb : Nat) :
    (l₁.foldl (HyperLogLog.insert md5h) (HyperLogLog.init m)).registers =
      (l₂.foldl (HyperLogLog.insert md5h) (HyperLogLog.init m)).registers ∧
      (l₁.foldl (SpectralBloomFilter.insert mmh) (SpectralBloomFilter.init k mb)).t =
        (l₂.foldl (SpectralBloomFilter.insert mmh) (SpectralBloomFilter.init k mb)).t := by
  constructor
  · exact congrArg HyperLogLog.registers
      (hperm.foldl_eq' (fun x _ y _ z => hll_insert_comm md5h z x y) _)
  · exact congrArg SpectralBloomFilter.t
      (hperm.foldl_eq' (fun x _ y _ z => sbf_insert_comm mmh z x y) _)

/-- Witness for C3: the multiset 0, 1, 1 inserted in two different orders. -/
theorem order_independence_witness :
    ([0, 1, 1] : List Nat).Perm [1, 0, 1] ∧
      ((([0, 1, 1] : List Nat).foldl (HyperLogLog.insert (fun n : Nat => n + 3))
          (HyperLogLog.init 4)).registers =
        (([1, 0, 1] : List Nat).foldl (HyperLogLog.insert (fun n : Nat => n + 3))
          (HyperLogLog.init 4)).registers ∧
        (([0, 1, 1] : List Nat).foldl
            (SpectralBloomFilter.insert (fun (n : Nat) (i : Nat) => (n : Int) - i))
            (SpectralBloomFilter.init 2 5)).t =
          (([1, 0, 1] : List Nat).foldl
            (SpectralBloomFilter.insert (fun (n : Nat) (i : Nat) => (n : Int) - i))
            (SpectralBloomFilter.init 2 5)).t) :=
  ⟨by decide, order_independence (fun n : Nat => n + 3)
    (fun (n : Nat) (i : Nat) => (n : Int) - i) [0, 1, 1] [1, 0, 1] (by decide) 4 2 5⟩

theorem sbf_getD_le_foldl_bump_plain (bs : List Nat) (t : List Nat) (j : Nat) :
    t.getD j 0 ≤ (bs.foldl SpectralBloomFilter.bump t).getD j 0 := by
  induction bs generalizing t with
  | nil => exact le_refl _
  | cons b bs' ih => exact le_trans (sbf_getD_le_bump t b j) (ih _)

theorem sbf_bump_fold_gain (bs : List Nat) (t : List Nat) (b : Nat)
    (hb : b ∈ bs) (hlen : b < t.length) :
    t.getD b 0 + 1 ≤ (bs.foldl SpectralBloomFilter.bump t).getD b 0 := by
  induction bs generalizing t with
  | nil => simp at hb
  | cons c cs ih =>
    simp only [List.foldl_cons]
    by_cases hbc : b = c
    · subst hbc
      have h1 : (SpectralBloomFilter.bump t b).getD b 0 = t.getD b 0 + 1 :=
        sbf_getD_bump_self t b hlen
      have h2 := sbf_getD_le_foldl_bump_plain cs (SpectralBloomFilter.bump t b) b
      omega
    · have hbcs : b ∈ cs := by
        rcases List.mem_cons.mp hb with h | h
        · exact absurd h hbc
        · exact h
      have hlen2 : b < (SpectralBloomFilter.bump t c).length := by
        rw [sbf_bump_length]; exact hlen
      have hmono := sbf_getD_le_bump t c b
      have := ih (SpectralBloomFilter.bump t c) hbcs hlen2
      omega

theorem sbf_insert_gain_self (mmh : α → Nat → Int) (s : SpectralBloomFilter) (x : α)
    (i : Nat) (hi : i < s.k) (hb : SpectralBloomFilter.hashing mmh s.m x i < s.t.length) :
    s.t.getD (SpectralBloomFilter.hashing mmh s.m x i) 0 + 1 ≤
      (SpectralBloomFilter.insert mmh s x).t.getD
        (SpectralBloomFilter.hashing mmh s.m x i) 0 := by
  rw [sbf_insert_t]
  apply sbf_bump_fold_gain
  · exact List.mem_map.mpr ⟨i, List.mem_range.mpr hi, rfl⟩
  · exact hb

theorem sbf_count_le_fold (mmh : α → Nat → Int) [DecidableEq α] (x : α) (i : Nat)
    (l : List α) (s : SpectralBloomFilter)
    (hi : i < s.k) (hb : SpectralBloomFilter.hashing mmh s.m x i < s.t.length) :
    s.t.getD (SpectralBloomFilter.hashing mmh s.m x i) 0 + l.count x ≤
      (l.foldl (SpectralBloomFilter.insert mmh) s).t.getD
        (SpectralBloomFilter.hashing mmh s.m x i) 0 := by
  induction l generalizing s with
  | nil => simp
  | cons y ys ih =>
    simp only [List.foldl_cons]
    have hm' : (SpectralBloomFilter.insert mmh s y).m = s.m := rfl
    have hk' : i < (SpectralBloomFilter.insert mmh s y).k := hi
    have hb' : SpectralBloomFilter.hashing mmh (SpectralBloomFilter.insert mmh s y).m x i <
        (SpectralBloomFilter.insert mmh s y).t.length := by
      rw [hm', sbf_insert_t_length]; exact hb
    have hih := ih (SpectralBloomFilter.insert mmh s y) hk' hb'
    rw [hm'] at hih
    by_cases hyx : x = y
    · subst hyx
      rw [List.count_cons_self]
      have hgain := sbf_insert_gain_self mmh s x i hi hb
      omega
    · rw [List.count_cons_of_ne hyx]
      have hmono : s.t.getD (SpectralBloomFilter.hashing mmh s.m x i) 0 ≤
          (SpectralBloomFilter.insert mmh s y).t.getD
            (SpectralBloomFilter.hashing mmh s.m x i) 0 :=
        sbf_getD_le_foldl_bump (List.range s.k) _ s.t _
      omega

/-- C1: for any sequence of insertions into a frequency estimator with
`k ≥ 1` hash functions and `m ≥ 1` buckets, and any element inserted at
least once, the uncorrected query returns the minimum of the probed
counters, and that minimum is at least the true number of insertions of the
element (collisions only inflate buckets). -/
theorem sbf_no_underestimate (mmh : α → Nat → Int) [DecidableEq α] (k m : Nat)
    (hk : 1 ≤ k) (hm : 1 ≤ m) (l : List α) (x : α) (hx : 1 ≤ l.count x) :
    SpectralBloomFilter.check mmh
        (l.foldl (SpectralBloomFilter.insert mmh) (SpectralBloomFilter.init k m)) x
        false none =
      Except.ok (SpectralBloomFilter.min_count mmh
        (l.foldl (SpectralBloomFilter.insert mmh) (SpectralBloomFilter.init k m)) x) ∧
      ((l.count x : ℝ) : EReal) ≤ SpectralBloomFilter.min_count mmh
        (l.foldl (SpectralBloomFilter.insert mmh) (SpectralBloomFilter.init k m)) x := by
  refine ⟨rfl, ?_⟩
  have hsm : (l.foldl (SpectralBloomFilter.insert mmh) (SpectralBloomFilter.init k m)).m =
      m := sbf_foldl_m mmh l _
  have hsk : (l.foldl (SpectralBloomFilter.insert mmh) (SpectralBloomFilter.init k m)).k =
      k := sbf_foldl_k mmh l _
  rw [SpectralBloomFilter.min_count]
  simp only [hsm, hsk]
  apply le_foldl_min
  · exact le_top
  · intro i hi
    have hik : i < k := List.mem_range.mp hi
    have hblt : SpectralBloomFilter.hashing mmh m x i < m := by
      have hm0 : (0 : ℤ) < (m : ℤ) := by exact_mod_cast hm
      have h1 : 0 ≤ mmh x i % (m : ℤ) := Int.emod_nonneg _ (by omega)
      have h2 : mmh x i % (m : ℤ) < (m : ℤ) := Int.emod_lt_of_pos _ hm0
      simp only [SpectralBloomFilter.hashing]
      omega
    have hkey := sbf_count_le_fold mmh x i l (SpectralBloomFilter.init k m) hik
      (by simpa [SpectralBloomFilter.init] using hblt)
    have hbridge : SpectralBloomFilter.hashing mmh (SpectralBloomFilter.init k m).m x i =
        SpectralBloomFilter.hashing mmh m x i := rfl
    rw [hbridge] at hkey
    have h0 : (SpectralBloomFilter.init k m).t.getD
        (SpectralBloomFilter.hashing mmh m x i) 0 = 0 := getD_replicate_zero m _
    rw [h0] at hkey
    have hnat : l.count x ≤
        (l.foldl (SpectralBloomFilter.insert mmh) (SpectralBloomFilter.init k m)).t.getD
          (SpectralBloomFilter.hashing mmh m x i) 0 := by omega
    exact_mod_cast hnat

/-- Witness for C1: k = 2, m = 5, the element 4 inserted twice among three
insertions. -/
theorem sbf_no_underestimate_witness :
    1 ≤ 2 ∧ 1 ≤ 5 ∧ 1 ≤ ([4, 9, 4] : List Nat).count 4 ∧
      (SpectralBloomFilter.check (fun (n : Nat) (i : Nat) => (n : Int) + i)
          (([4, 9, 4] : List Nat).foldl
            (SpectralBloomFilter.insert (fun (n : Nat) (i : Nat) => (n : Int) + i))
            (SpectralBloomFilter.init 2 5)) 4 false none =
        Except.ok (SpectralBloomFilter.min_count (fun (n : Nat) (i : Nat) => (n : Int) + i)
          (([4, 9, 4] : List Nat).foldl
            (SpectralBloomFilter.insert (fun (n : Nat) (i : Nat) => (n : Int) + i))
            (SpectralBloomFilter.init 2 5)) 4) ∧
        ((([4, 9, 4] : List Nat).count 4 : ℝ) : EReal) ≤
          SpectralBloomFilter.min_count (fun (n : Nat) (i : Nat) => (n : Int) + i)
            (([4, 9, 4] : List Nat).foldl
              (SpectralBloomFilter.insert (fun (n : Nat) (i : Nat) => (n : Int) + i))
              (SpectralBloomFilter.init 2 5)) 4) :=
  ⟨by decide, by decide, by decide,
    sbf_no_underestimate (fun (n : Nat) (i : Nat) => (n : Int) + i) 2 5
      (by decide) (by decide) [4, 9, 4] 4 (by decide)⟩
